import Mathlib

/-!
Verification development for the jotdown build-definition scripts and the
task-graph engine contract they target (spec sections 3-8).  The repository
contains the build scripts (`bake.py`, `build.py`); the engine itself
(graph, scheduler, recipes, cache) is an external collaborator, so its
behaviour is modelled here from the specification text, and the concrete
dependency graphs declared by the two scripts are embedded verbatim.
-/

namespace JD

/-- Terminal per-node execution result states (spec section 3, Execution
Result): a node either succeeded, failed, or was skipped because an
upstream dependency failed. -/
inductive NState where
  | succeeded
  | failed
  | skippedUnreachable
deriving DecidableEq, Repr

/-- Modelled from the spec: a graph Node of the missing engine — a name,
its declared dependency names, and the outcome its recipe would produce
if invoked (`recipeOk = true` means the recipe succeeds). -/
structure ANode where
  name : String
  deps : List String
  recipeOk : Bool
deriving DecidableEq, Repr

/-- Association-list lookup keyed by strings. -/
def alookup {α : Type} : List (String × α) → String → Option α
  | [], _ => none
  | (k, v) :: rest, n => if k = n then some v else alookup rest n

/-- A dependency state that blocks a dependent: `Failed` or
`SkippedUnreachable`. -/
def blockedState : Option NState → Bool
  | some NState.failed => true
  | some NState.skippedUnreachable => true
  | _ => false

/-- True when some dependency in `ds` has a blocking state in table `tbl`. -/
def depsBlocked (tbl : List (String × NState)) (ds : List String) : Bool :=
  ds.any (fun d => blockedState (alookup tbl d))

/-- The terminal state produced by actually invoking a recipe. -/
def okState (b : Bool) : NState :=
  if b then NState.succeeded else NState.failed

/-- Modelled from the spec: the missing engine's scheduler executing a
topologically ordered node list.  Each node whose dependencies include a
`Failed`/`SkippedUnreachable` node is marked `SkippedUnreachable` without
invoking its recipe; otherwise the recipe runs (the node is appended to the
executed list) and yields `Succeeded` or `Failed`. -/
def runFrom : List (String × NState) → List String → List ANode →
    List (String × NState) × List String
  | tbl, ex, [] => (tbl, ex)
  | tbl, ex, node :: rest =>
    if depsBlocked tbl node.deps then
      runFrom (tbl ++ [(node.name, NState.skippedUnreachable)]) ex rest
    else
      runFrom (tbl ++ [(node.name, okState node.recipeOk)]) (ex ++ [node.name]) rest

/-- Run one invocation of the scheduler over a topologically ordered graph. -/
def runGraph (g : List ANode) : List (String × NState) × List String :=
  runFrom [] [] g

/-- Final per-node state table of one invocation. -/
def stateTable (g : List ANode) : List (String × NState) :=
  (runGraph g).1

/-- Names of the nodes whose recipes were actually invoked. -/
def executedNodes (g : List ANode) : List String :=
  (runGraph g).2

/-- The node list is topologically ordered: every dependency of a node
appears earlier, and names are unique. -/
def topoOkAux : List String → List ANode → Bool
  | _, [] => true
  | seen, node :: rest =>
    node.deps.all (fun d => decide (d ∈ seen)) && !(decide (node.name ∈ seen)) &&
      topoOkAux (seen ++ [node.name]) rest

/-- Well-formedness of a graph list: topologically ordered, unique names. -/
def topoOk (g : List ANode) : Bool :=
  topoOkAux [] g

/-- Declared direct dependencies of the node named `n`. -/
def depsOf (g : List ANode) (n : String) : List String :=
  match g.find? (fun node => node.name == n) with
  | some node => node.deps
  | none => []

/-- Transitive dependency relation: `DependsOn g n m` means node `n`
transitively depends on `m` (so `n` is a transitive dependent of `m`). -/
inductive DependsOn (g : List ANode) : String → String → Prop
  | direct {n d : String} : d ∈ depsOf g n → DependsOn g n d
  | indirect {n d m : String} : d ∈ depsOf g n → DependsOn g d m → DependsOn g n m

/-- Overall invocation outcome: zero (ok) iff every requested target ended
`Succeeded` (spec section 6, exit status). -/
def invocationOk (g : List ANode) (targets : List String) : Bool :=
  targets.all (fun t => alookup (stateTable g) t == some NState.succeeded)

lemma alookup_append_left {α : Type} {l1 : List (String × α)} (l2 : List (String × α))
    {n : String} {v : α} (h : alookup l1 n = some v) :
    alookup (l1 ++ l2) n = some v := by
  induction l1 with
  | nil => simp [alookup] at h
  | cons p rest ih =>
    obtain ⟨k, w⟩ := p
    by_cases hk : k = n
    · subst hk
      simp [alookup] at h ⊢
      exact h
    · simp [alookup, hk] at h ⊢
      exact ih h

lemma alookup_append_right {α : Type} {l1 : List (String × α)} (l2 : List (String × α))
    {n : String} (h : alookup l1 n = none) :
    alookup (l1 ++ l2) n = alookup l2 n := by
  induction l1 with
  | nil => simp
  | cons p rest ih =>
    obtain ⟨k, w⟩ := p
    by_cases hk : k = n
    · subst hk
      simp [alookup] at h
    · simp [alookup, hk] at h ⊢
      exact ih h

lemma alookup_eq_none_of_not_mem {α : Type} {l : List (String × α)} {n : String}
    (h : n ∉ l.map Prod.fst) : alookup l n = none := by
  induction l with
  | nil => rfl
  | cons p rest ih =>
    obtain ⟨k, w⟩ := p
    simp only [List.map_cons, List.mem_cons] at h
    push_neg at h
    have hk : k ≠ n := fun hkn => h.1 hkn.symm
    simp [alookup, hk]
    exact ih h.2

lemma alookup_isSome_of_mem {α : Type} {l : List (String × α)} {n : String}
    (h : n ∈ l.map Prod.fst) : ∃ v, alookup l n = some v := by
  induction l with
  | nil => simp at h
  | cons p rest ih =>
    obtain ⟨k, w⟩ := p
    by_cases hk : k = n
    · exact ⟨w, by simp [alookup, hk]⟩
    · simp only [List.map_cons, List.mem_cons] at h
      rcases h with h | h
      · exact absurd h.symm hk
      · simpa [alookup, hk] using ih h

lemma depsBlocked_congr {t1 t2 : List (String × NState)} {ds : List String}
    (h : ∀ d ∈ ds, alookup t1 d = alookup t2 d) :
    depsBlocked t1 ds = depsBlocked t2 ds := by
  unfold depsBlocked
  induction ds with
  | nil => rfl
  | cons d rest ih =>
    simp only [List.any_cons]
    rw [h d (by simp), ih (fun x hx => h x (by simp [hx]))]

lemma topoOkAux_cons {seen : List String} {node : ANode} {rest : List ANode}
    (h : topoOkAux seen (node :: rest) = true) :
    (∀ d ∈ node.deps, d ∈ seen) ∧ node.name ∉ seen ∧
      topoOkAux (seen ++ [node.name]) rest = true := by
  simp only [topoOkAux, Bool.and_eq_true, List.all_eq_true, decide_eq_true_eq,
    Bool.not_eq_true', decide_eq_false_iff_not] at h
  exact ⟨h.1.1, h.1.2, h.2⟩

lemma topo_disjoint (g : List ANode) :
    ∀ seen, topoOkAux seen g = true → ∀ n ∈ g.map ANode.name, n ∉ seen := by
  induction g with
  | nil => simp
  | cons node rest ih =>
    intro seen h n hn
    obtain ⟨_, hname, hrest⟩ := topoOkAux_cons h
    simp only [List.map_cons, List.mem_cons] at hn
    rcases hn with hn | hn
    · exact hn ▸ hname
    · intro hmem
      exact ih (seen ++ [node.name]) hrest n hn (by simp [hmem])

lemma runFrom_spec (g : List ANode) :
    ∀ (tbl : List (String × NState)) (ex : List String),
      topoOkAux (tbl.map Prod.fst) g = true →
      (∀ n s, alookup tbl n = some s → alookup (runFrom tbl ex g).1 n = some s) ∧
      ((runFrom tbl ex g).1.map Prod.fst = tbl.map Prod.fst ++ g.map ANode.name) ∧
      (∃ tail, (runFrom tbl ex g).2 = ex ++ tail ∧ tail.Sublist (g.map ANode.name)) ∧
      (∀ node ∈ g,
        alookup (runFrom tbl ex g).1 node.name =
          some (if depsBlocked (runFrom tbl ex g).1 node.deps then NState.skippedUnreachable
                else okState node.recipeOk) ∧
        (node.name ∈ (runFrom tbl ex g).2 ↔ node.name ∈ ex ∨
          depsBlocked (runFrom tbl ex g).1 node.deps = false)) := by
  induction g with
  | nil =>
    intro tbl ex _
    refine ⟨fun n s h => h, by simp [runFrom], ⟨[], by simp [runFrom], List.Sublist.refl _⟩,
      by simp⟩
  | cons node rest ih =>
    intro tbl ex h
    obtain ⟨hdeps, hname, hrest⟩ := topoOkAux_cons h
    by_cases hb : depsBlocked tbl node.deps = true
    case pos =>
      have hrun : runFrom tbl ex (node :: rest) =
          runFrom (tbl ++ [(node.name, NState.skippedUnreachable)]) ex rest := by
        simp [runFrom, hb]
      have hkeys : (tbl ++ [(node.name, NState.skippedUnreachable)]).map Prod.fst =
          tbl.map Prod.fst ++ [node.name] := by simp
      obtain ⟨P1, P2, P3, P4⟩ :=
        ih (tbl ++ [(node.name, NState.skippedUnreachable)]) ex (by rw [hkeys]; exact hrest)
      have hlook0 : alookup tbl node.name = none :=
        alookup_eq_none_of_not_mem hname
      have hlook1 : alookup (tbl ++ [(node.name, NState.skippedUnreachable)]) node.name =
          some NState.skippedUnreachable := by
        rw [alookup_append_right _ hlook0]; simp [alookup]
      have hdep_pres : ∀ d ∈ node.deps,
          alookup tbl d = alookup (runFrom tbl ex (node :: rest)).1 d := by
        intro d hd
        obtain ⟨v, hv⟩ := alookup_isSome_of_mem (hdeps d hd)
        rw [hv, hrun]
        exact (P1 d v (alookup_append_left _ hv)).symm
      have hbfin : depsBlocked (runFrom tbl ex (node :: rest)).1 node.deps = true := by
        rw [← depsBlocked_congr hdep_pres]; exact hb
      have hfin_name : alookup (runFrom tbl ex (node :: rest)).1 node.name =
          some NState.skippedUnreachable := by
        rw [hrun]; exact P1 node.name _ hlook1
      have hnotrest : node.name ∉ rest.map ANode.name := by
        intro hmem
        exact topo_disjoint rest _ hrest node.name hmem (by simp)
      refine ⟨?_, ?_, ?_, ?_⟩
      · intro n s hs
        rw [hrun]
        exact P1 n s (alookup_append_left _ hs)
      · rw [hrun, P2, hkeys]; simp
      · obtain ⟨tail, htail, hsub⟩ := P3
        exact ⟨tail, by rw [hrun]; exact htail, by simpa using hsub.cons node.name⟩
      · intro node2 hnode2
        simp only [List.mem_cons] at hnode2
        rcases hnode2 with rfl | hnode2
        · refine ⟨by rw [hfin_name, hbfin]; simp, ?_⟩
          obtain ⟨tail, htail, hsub⟩ := P3
          have hbfin' := hbfin
          rw [hrun] at hbfin'
          rw [hrun, htail]
          have hnt : node2.name ∉ tail := fun hm => hnotrest (hsub.subset hm)
          simp [hnt, hbfin']
        · obtain ⟨Q1, Q2⟩ := P4 node2 hnode2
          exact ⟨by rw [hrun]; exact Q1, by rw [hrun]; exact Q2⟩
    case neg =>
      have hb' : depsBlocked tbl node.deps = false := by
        simpa using hb
      have hrun : runFrom tbl ex (node :: rest) =
          runFrom (tbl ++ [(node.name, okState node.recipeOk)]) (ex ++ [node.name]) rest := by
        simp [runFrom, hb']
      have hkeys : (tbl ++ [(node.name, okState node.recipeOk)]).map Prod.fst =
          tbl.map Prod.fst ++ [node.name] := by simp
      obtain ⟨P1, P2, P3, P4⟩ :=
        ih (tbl ++ [(node.name, okState node.recipeOk)]) (ex ++ [node.name])
          (by rw [hkeys]; exact hrest)
      have hlook0 : alookup tbl node.name = none :=
        alookup_eq_none_of_not_mem hname
      have hlook1 : alookup (tbl ++ [(node.name, okState node.recipeOk)]) node.name =
          some (okState node.recipeOk) := by
        rw [alookup_append_right _ hlook0]; simp [alookup]
      have hdep_pres : ∀ d ∈ node.deps,
          alookup tbl d = alookup (runFrom tbl ex (node :: rest)).1 d := by
        intro d hd
        obtain ⟨v, hv⟩ := alookup_isSome_of_mem (hdeps d hd)
        rw [hv, hrun]
        exact (P1 d v (alookup_append_left _ hv)).symm
      have hbfin : depsBlocked (runFrom tbl ex (node :: rest)).1 node.deps = false := by
        rw [← depsBlocked_congr hdep_pres]; exact hb'
      have hfin_name : alookup (runFrom tbl ex (node :: rest)).1 node.name =
          some (okState node.recipeOk) := by
        rw [hrun]; exact P1 node.name _ hlook1
      have hnotrest : node.name ∉ rest.map ANode.name := by
        intro hmem
        exact topo_disjoint rest _ hrest node.name hmem (by simp)
      refine ⟨?_, ?_, ?_, ?_⟩
      · intro n s hs
        rw [hrun]
        exact P1 n s (alookup_append_left _ hs)
      · rw [hrun, P2, hkeys]; simp
      · obtain ⟨tail, htail, hsub⟩ := P3
        refine ⟨node.name :: tail, ?_, ?_⟩
        · rw [hrun, htail]; simp
        · simpa using hsub.cons₂ node.name
      · intro node2 hnode2
        simp only [List.mem_cons] at hnode2
        rcases hnode2 with rfl | hnode2
        · refine ⟨by rw [hfin_name, hbfin]; simp, ?_⟩
          obtain ⟨tail, htail, hsub⟩ := P3
          have hbfin' := hbfin
          rw [hrun] at hbfin'
          rw [hrun, htail]
          simp [hbfin']
        · obtain ⟨Q1, Q2⟩ := P4 node2 hnode2
          refine ⟨by rw [hrun]; exact Q1, ?_⟩
          rw [hrun, Q2]
          have hne : node2.name ≠ node.name := by
            intro hEq
            exact hnotrest (hEq ▸ (List.mem_map_of_mem ANode.name hnode2))
          simp [hne]

lemma stateTable_spec (g : List ANode) (hg : topoOk g = true) :
    ((stateTable g).map Prod.fst = g.map ANode.name) ∧
    (executedNodes g).Sublist (g.map ANode.name) ∧
    (∀ node ∈ g,
      alookup (stateTable g) node.name =
        some (if depsBlocked (stateTable g) node.deps then NState.skippedUnreachable
              else okState node.recipeOk) ∧
      (node.name ∈ executedNodes g ↔ depsBlocked (stateTable g) node.deps = false)) := by
  obtain ⟨_, P2, P3, P4⟩ := runFrom_spec g [] [] (by simpa [topoOk] using hg)
  refine ⟨by simpa using P2, ?_, ?_⟩
  · obtain ⟨tail, htail, hsub⟩ := P3
    simpa [executedNodes, runGraph, htail] using hsub
  · intro node hnode
    obtain ⟨Q1, Q2⟩ := P4 node hnode
    exact ⟨Q1, by simpa using Q2⟩

lemma topo_nodup (g : List ANode) (hg : topoOk g = true) :
    (g.map ANode.name).Nodup := by
  suffices h : ∀ seen, topoOkAux seen g = true → (g.map ANode.name).Nodup from
    h [] hg
  clear hg
  induction g with
  | nil => simp
  | cons node rest ih =>
    intro seen h
    obtain ⟨_, _, hrest⟩ := topoOkAux_cons h
    simp only [List.map_cons, List.nodup_cons]
    refine ⟨?_, ih _ hrest⟩
    intro hmem
    exact topo_disjoint rest _ hrest node.name hmem (by simp)

lemma depsOf_mem_node {g : List ANode} {n d : String} (h : d ∈ depsOf g n) :
    ∃ node ∈ g, node.name = n ∧ node.deps = depsOf g n := by
  cases hf : g.find? (fun node => node.name == n) with
  | none =>
    unfold depsOf at h
    rw [hf] at h
    simp at h
  | some node =>
    have hm := List.mem_of_find?_eq_some hf
    have hp := List.find?_some hf
    exact ⟨node, hm, by simpa using hp, by simp [depsOf, hf]⟩

lemma dependsOn_src_mem {g : List ANode} {n m : String} (h : DependsOn g n m) :
    n ∈ g.map ANode.name := by
  cases h with
  | direct hd =>
    obtain ⟨node, hnode, hname, _⟩ := depsOf_mem_node hd
    exact hname ▸ List.mem_map_of_mem ANode.name hnode
  | indirect hd _ =>
    obtain ⟨node, hnode, hname, _⟩ := depsOf_mem_node hd
    exact hname ▸ List.mem_map_of_mem ANode.name hnode

lemma blocked_step (g : List ANode) (hg : topoOk g = true) {n d : String}
    (hd : d ∈ depsOf g n)
    (hb : blockedState (alookup (stateTable g) d) = true) :
    alookup (stateTable g) n = some NState.skippedUnreachable ∧ n ∉ executedNodes g := by
  obtain ⟨node, hnode, hname, hdeps⟩ := depsOf_mem_node hd
  obtain ⟨_, _, P4⟩ := stateTable_spec g hg
  obtain ⟨Q1, Q2⟩ := P4 node hnode
  have hblocked : depsBlocked (stateTable g) node.deps = true := by
    unfold depsBlocked
    exact List.any_eq_true.mpr ⟨d, by rw [hdeps]; exact hd, hb⟩
  rw [hblocked] at Q1 Q2
  refine ⟨by rw [← hname]; simpa using Q1, ?_⟩
  rw [← hname]
  intro hmem
  simp [hmem] at Q2

lemma propagate_blocked (g : List ANode) (hg : topoOk g = true) {y x : String}
    (h : DependsOn g y x)
    (hb : blockedState (alookup (stateTable g) x) = true) :
    alookup (stateTable g) y = some NState.skippedUnreachable ∧ y ∉ executedNodes g := by
  induction h with
  | direct hd => exact blocked_step g hg hd hb
  | indirect hd _ ih =>
    obtain ⟨hstate, _⟩ := ih hb
    exact blocked_step g hg hd (by rw [hstate]; rfl)

lemma find?_name_eq_self {g : List ANode} (hnd : (g.map ANode.name).Nodup)
    {node : ANode} (hnode : node ∈ g) :
    g.find? (fun x => x.name == node.name) = some node := by
  induction g with
  | nil => simp at hnode
  | cons hd rest ih =>
    simp only [List.map_cons, List.nodup_cons] at hnd
    rcases List.mem_cons.mp hnode with rfl | hmem
    · simp [List.find?]
    · have hne : hd.name ≠ node.name := by
        intro hEq
        exact hnd.1 (hEq ▸ List.mem_map_of_mem ANode.name hmem)
      have hbe : (hd.name == node.name) = false := by simpa using hne
      simp only [List.find?, hbe]
      exact ih hnd.2 hmem

lemma depsOf_eq_deps {g : List ANode} (hg : topoOk g = true) {node : ANode}
    (hnode : node ∈ g) : depsOf g node.name = node.deps := by
  unfold depsOf
  rw [find?_name_eq_self (topo_nodup g hg) hnode]

lemma independent_runs (g : List ANode) (hg : topoOk g = true) {node : ANode}
    (hnode : node ∈ g)
    (hok : ∀ d, DependsOn g node.name d →
      alookup (stateTable g) d = some NState.succeeded) :
    node.name ∈ executedNodes g ∧
      alookup (stateTable g) node.name = some (okState node.recipeOk) := by
  obtain ⟨hkeys, _, P4⟩ := stateTable_spec g hg
  obtain ⟨Q1, Q2⟩ := P4 node hnode
  have hblocked : depsBlocked (stateTable g) node.deps = false := by
    unfold depsBlocked
    rw [List.any_eq_false]
    intro d hd
    have : alookup (stateTable g) d = some NState.succeeded :=
      hok d (DependsOn.direct (by rw [depsOf_eq_deps hg hnode]; exact hd))
    rw [this]
    simp [blockedState]
  rw [hblocked] at Q1 Q2
  exact ⟨Q2.mpr rfl, by simpa using Q1⟩

lemma state_exists_of_mem (g : List ANode) (hg : topoOk g = true) {n : String}
    (hn : n ∈ g.map ANode.name) : ∃ s, alookup (stateTable g) n = some s := by
  obtain ⟨hkeys, _, _⟩ := stateTable_spec g hg
  exact alookup_isSome_of_mem (by rw [hkeys]; exact hn)

lemma exit_status_iff (g : List ANode) (targets : List String) (hg : topoOk g = true)
    (ht : ∀ t ∈ targets, t ∈ g.map ANode.name) :
    (invocationOk g targets = false ↔
      ∃ t ∈ targets, ∃ n s, (n = t ∨ DependsOn g t n) ∧
        alookup (stateTable g) n = some s ∧ blockedState (some s) = true) := by
  constructor
  · intro h
    unfold invocationOk at h
    rw [List.all_eq_false] at h
    obtain ⟨t, hmem, hfail⟩ := h
    obtain ⟨s, hs⟩ := state_exists_of_mem g hg (ht t hmem)
    refine ⟨t, hmem, t, s, Or.inl rfl, hs, ?_⟩
    rw [hs] at hfail
    cases s with
    | succeeded => simp at hfail
    | failed => rfl
    | skippedUnreachable => rfl
  · rintro ⟨t, hmem, n, s, hrel, hs, hbl⟩
    have hnot : alookup (stateTable g) t ≠ some NState.succeeded := by
      rcases hrel with rfl | hdep
      · rw [hs]
        intro hEq
        rw [Option.some_inj.mp hEq] at hbl
        simp [blockedState] at hbl
      · obtain ⟨hskip, _⟩ := propagate_blocked g hg hdep (by rw [hs]; exact hbl)
        rw [hskip]
        simp
    unfold invocationOk
    rw [List.all_eq_false]
    exact ⟨t, hmem, by simpa using hnot⟩

lemma alookup_unique {α : Type} {l : List (String × α)} (h : (l.map Prod.fst).Nodup)
    {n : String} {s1 s2 : α} (h1 : (n, s1) ∈ l) (h2 : (n, s2) ∈ l) : s1 = s2 := by
  induction l with
  | nil => simp at h1
  | cons p rest ih =>
    simp only [List.map_cons, List.nodup_cons] at h
    rcases List.mem_cons.mp h1 with h1' | hm1
    · subst h1'
      rcases List.mem_cons.mp h2 with h2' | hm2
      · exact congrArg Prod.snd h2'.symm
      · exact absurd (List.mem_map_of_mem Prod.fst hm2) h.1
    · rcases List.mem_cons.mp h2 with h2' | hm2
      · subst h2'
        exact absurd (List.mem_map_of_mem Prod.fst hm1) h.1
      · exact ih h.2 hm1 hm2

/-- The spec's concrete scenario: node `A` fails, node `B` independently
succeeds, and node `C` depends on both. -/
def abcGraph : List ANode :=
  [⟨"A", [], false⟩, ⟨"B", [], true⟩, ⟨"C", ["A", "B"], true⟩]

/-- Claim C1: in any invocation over a well-formed graph, if a node's recipe
ends `Failed` then every transitive dependent ends `SkippedUnreachable` and its
recipe is never invoked; a node all of whose transitive dependencies succeeded
still runs to completion; the invocation outcome is non-zero iff some requested
target or one of its transitive dependencies ends `Failed` or
`SkippedUnreachable`; and in the concrete graph where `A` fails, `B` succeeds
and `C` depends on both, the terminal states are `A` Failed, `B` Succeeded,
`C` SkippedUnreachable and the exit status is failure. -/
theorem C1_failure_propagation (g : List ANode) (targets : List String)
    (x y : String) (hg : topoOk g = true)
    (ht : ∀ t ∈ targets, t ∈ g.map ANode.name) :
    (alookup (stateTable g) x = some NState.failed → DependsOn g y x →
      alookup (stateTable g) y = some NState.skippedUnreachable ∧
        y ∉ executedNodes g) ∧
    (∀ node ∈ g, (∀ d, DependsOn g node.name d →
        alookup (stateTable g) d = some NState.succeeded) →
      node.name ∈ executedNodes g ∧
        alookup (stateTable g) node.name = some (okState node.recipeOk)) ∧
    (invocationOk g targets = false ↔
      ∃ t ∈ targets, ∃ n s, (n = t ∨ DependsOn g t n) ∧
        alookup (stateTable g) n = some s ∧ blockedState (some s) = true) ∧
    (alookup (stateTable abcGraph) "A" = some NState.failed ∧
     alookup (stateTable abcGraph) "B" = some NState.succeeded ∧
     alookup (stateTable abcGraph) "C" = some NState.skippedUnreachable ∧
     invocationOk abcGraph ["A", "B", "C"] = false) := by
  refine ⟨?_, ?_, exit_status_iff g targets hg ht, by decide⟩
  · intro hx hdep
    exact propagate_blocked g hg hdep (by rw [hx]; rfl)
  · intro node hnode hok
    exact independent_runs g hg hnode hok

theorem C1_failure_propagation_witness :
    alookup (stateTable abcGraph) "C" = some NState.skippedUnreachable ∧
      "C" ∉ executedNodes abcGraph :=
  (C1_failure_propagation abcGraph ["A", "B", "C"] "A" "C" (by decide)
      (by decide)).1 (by decide) (DependsOn.direct (by decide))

/-- Claim C2: within one invocation each node's recipe executes at most once
regardless of how many dependents reference it (the executed list contains any
name at most once), and the state table holds a single memoized terminal result
per name, so all dependents observe the same result. -/
theorem C2_execute_at_most_once (g : List ANode) (n : String) (s1 s2 : NState)
    (hg : topoOk g = true) :
    (executedNodes g).count n ≤ 1 ∧
      ((n, s1) ∈ stateTable g → (n, s2) ∈ stateTable g → s1 = s2) := by
  obtain ⟨hkeys, hsub, _⟩ := stateTable_spec g hg
  have hnd := topo_nodup g hg
  refine ⟨List.nodup_iff_count_le_one.mp (hsub.nodup hnd) n, ?_⟩
  intro h1 h2
  exact alookup_unique (by rw [hkeys]; exact hnd) h1 h2

theorem C2_execute_at_most_once_witness :
    (executedNodes abcGraph).count "A" ≤ 1 ∧
      (("A", NState.failed) ∈ stateTable abcGraph →
        ("A", NState.failed) ∈ stateTable abcGraph → NState.failed = NState.failed) :=
  C2_execute_at_most_once abcGraph "A" NState.failed NState.failed (by decide)

/-- Outcome a sub-recipe of a composite produces when executed. -/
inductive SubResult where
  | ok (v : Nat)
  | err
deriving DecidableEq, Repr

/-- A sub-recipe of a `Sequence`/`Parallel` composite: an identifier and the
result its execution would produce. -/
structure Sub where
  id : String
  res : SubResult
deriving DecidableEq, Repr

/-- Whether executing this sub-recipe fails. -/
def isFail (s : Sub) : Bool :=
  match s.res with
  | SubResult.err => true
  | _ => false

/-- The value a succeeding sub-recipe yields. -/
def valOf (s : Sub) : Nat :=
  match s.res with
  | SubResult.ok v => v
  | SubResult.err => 0

/-- Overall result of a `Sequence` composite: the final value, or the failure
attributed to the failing sub-recipe. -/
inductive CompResult where
  | succeeded (v : Nat)
  | failed (who : String)
deriving DecidableEq, Repr

/-- Modelled from the spec: `Sequence` execution of the missing engine — an
ordered list of sub-recipes executed in order, aborting the remaining
sub-recipes on the first failure; the overall result is the last sub-recipe's
result, or the failure attributed to the failing sub-recipe.  Returns the
identifiers of the sub-recipes that executed together with the result. -/
def runSeq : List Sub → List String × CompResult
  | [] => ([], CompResult.succeeded 0)
  | [s] =>
    ([s.id], match s.res with
      | SubResult.ok v => CompResult.succeeded v
      | SubResult.err => CompResult.failed s.id)
  | s :: s2 :: rest =>
    match s.res with
    | SubResult.err => ([s.id], CompResult.failed s.id)
    | SubResult.ok _ =>
      ((s.id :: (runSeq (s2 :: rest)).1), (runSeq (s2 :: rest)).2)

lemma isFail_true_iff {s : Sub} : isFail s = true ↔ s.res = SubResult.err := by
  cases h : s.res <;> simp [isFail, h]

lemma isFail_false_iff {s : Sub} : isFail s = false ↔ ∃ v, s.res = SubResult.ok v := by
  cases h : s.res <;> simp [isFail, h]

lemma runSeq_cons_fail {s : Sub} (hf : isFail s = true) (l : List Sub) :
    runSeq (s :: l) = ([s.id], CompResult.failed s.id) := by
  have hres := isFail_true_iff.mp hf
  cases l with
  | nil => simp [runSeq, hres]
  | cons s2 rest => simp [runSeq, hres]

lemma runSeq_cons_ok {s : Sub} (hok : isFail s = false) {l : List Sub} (hne : l ≠ []) :
    runSeq (s :: l) = ((s.id :: (runSeq l).1), (runSeq l).2) := by
  obtain ⟨v, hres⟩ := isFail_false_iff.mp hok
  cases l with
  | nil => exact absurd rfl hne
  | cons s2 rest => simp [runSeq, hres]

lemma runSeq_all_ok {l : List Sub} {lastS : Sub}
    (hall : ∀ t ∈ l, isFail t = false) (hlast : l.getLast? = some lastS) :
    runSeq l = (l.map Sub.id, CompResult.succeeded (valOf lastS)) := by
  induction l with
  | nil => simp at hlast
  | cons t ts ih =>
    cases ts with
    | nil =>
      obtain ⟨v, hres⟩ := isFail_false_iff.mp (hall t (by simp))
      simp only [List.getLast?_singleton, Option.some_inj] at hlast
      subst hlast
      simp [runSeq, hres, valOf]
    | cons s2 rest =>
      have hne : s2 :: rest ≠ [] := by simp
      rw [runSeq_cons_ok (hall t (by simp)) hne,
        ih (fun u hu => hall u (by simp [hu])) (by simpa using hlast)]
      simp

lemma runSeq_first_fail {pre post : List Sub} {s : Sub}
    (hpre : ∀ t ∈ pre, isFail t = false) (hs : isFail s = true) :
    runSeq (pre ++ s :: post) =
      (pre.map Sub.id ++ [s.id], CompResult.failed s.id) := by
  induction pre with
  | nil => simpa using runSeq_cons_fail hs post
  | cons t ts ih =>
    have hne : ts ++ s :: post ≠ [] := by simp
    rw [List.cons_append, runSeq_cons_ok (hpre t (by simp)) hne,
      ih (fun u hu => hpre u (by simp [hu]))]
    simp

/-- Claim C5: a `Sequence` over sub-recipes executes them in order; if a
sub-recipe fails, the ones after it do not execute and the overall result is
`Failed` attributed to that sub-recipe; if all succeed, the overall result is
the last sub-recipe's result; and concretely, in a three-step sequence whose
second step fails, exactly the first two steps execute and the failure is
attributed to the second. -/
theorem C5_sequence_composition (pre post l : List Sub) (s lastS : Sub)
    (hpre : ∀ t ∈ pre, isFail t = false) (hs : isFail s = true)
    (hall : ∀ t ∈ l, isFail t = false) (hlast : l.getLast? = some lastS) :
    runSeq (pre ++ s :: post) =
      (pre.map Sub.id ++ [s.id], CompResult.failed s.id) ∧
    runSeq l = (l.map Sub.id, CompResult.succeeded (valOf lastS)) ∧
    runSeq [⟨"s1", SubResult.ok 1⟩, ⟨"s2", SubResult.err⟩, ⟨"s3", SubResult.ok 3⟩] =
      (["s1", "s2"], CompResult.failed "s2") :=
  ⟨runSeq_first_fail hpre hs, runSeq_all_ok hall hlast, by decide⟩

theorem C5_sequence_composition_witness :
    runSeq [⟨"s1", SubResult.ok 1⟩, ⟨"s2", SubResult.err⟩, ⟨"s3", SubResult.ok 3⟩] =
      (["s1", "s2"], CompResult.failed "s2") ∧
    runSeq [⟨"s1", SubResult.ok 1⟩] = (["s1"], CompResult.succeeded 1) :=
  ⟨(C5_sequence_composition [⟨"s1", SubResult.ok 1⟩] [⟨"s3", SubResult.ok 3⟩]
      [⟨"s1", SubResult.ok 1⟩] ⟨"s2", SubResult.err⟩ ⟨"s1", SubResult.ok 1⟩
      (by decide) (by decide) (by decide) (by decide)).1,
   (C5_sequence_composition [⟨"s1", SubResult.ok 1⟩] [⟨"s3", SubResult.ok 3⟩]
      [⟨"s1", SubResult.ok 1⟩] ⟨"s2", SubResult.err⟩ ⟨"s1", SubResult.ok 1⟩
      (by decide) (by decide) (by decide) (by decide)).2.1⟩

/-- Overall result of a `Parallel` composite: all values, or the complete set
of failures collected for the report. -/
inductive ParResult where
  | succeeded (vs : List Nat)
  | failed (whos : List String)
deriving DecidableEq, Repr

/-- Identifiers of the failing sub-recipes of a parallel group. -/
def failuresOf (l : List Sub) : List String :=
  (l.filter (fun s => isFail s)).map Sub.id

/-- Modelled from the spec: `Parallel` execution of the missing engine — all
sub-recipes are dispatched, the overall result succeeds only if all succeed,
and on failure every failure is collected (not just the first) for reporting. -/
def runPar (l : List Sub) : ParResult :=
  if failuresOf l = [] then ParResult.succeeded (l.map valOf)
  else ParResult.failed (failuresOf l)

/-- Whether a parallel result is an overall success. -/
def parOk (r : ParResult) : Bool :=
  match r with
  | ParResult.succeeded _ => true
  | _ => false

/-- Claim C6: a `Parallel` composite succeeds iff every sub-recipe succeeds,
and when it fails the report contains every sub-recipe failure that occurred,
not only the first one; concretely, when both of two sub-recipes fail the
report contains both. -/
theorem C6_parallel_collects_all_failures (l : List Sub) (s : Sub) (hs : s ∈ l) :
    (parOk (runPar l) = true ↔ ∀ t ∈ l, isFail t = false) ∧
    (isFail s = true →
      ∃ whos, runPar l = ParResult.failed whos ∧ s.id ∈ whos) ∧
    runPar [⟨"p1", SubResult.err⟩, ⟨"p2", SubResult.err⟩] =
      ParResult.failed ["p1", "p2"] := by
  refine ⟨?_, ?_, by decide⟩
  · constructor
    · intro h t ht
      by_cases hf : failuresOf l = []
      · have := List.filter_eq_nil.mp (by simpa [failuresOf] using hf)
        simpa using this t ht
      · simp [runPar, hf, parOk] at h
    · intro h
      have hf : failuresOf l = [] := by
        simp only [failuresOf, List.map_eq_nil]
        exact List.filter_eq_nil.mpr (fun a ha => by simp [h a ha])
      simp [runPar, hf, parOk]
  · intro hfs
    have hmem : s.id ∈ failuresOf l :=
      List.mem_map_of_mem Sub.id (List.mem_filter.mpr ⟨hs, by simpa using hfs⟩)
    have hne : failuresOf l ≠ [] := fun hEq => by simp [hEq] at hmem
    exact ⟨failuresOf l, by simp [runPar, hne], hmem⟩

theorem C6_parallel_collects_all_failures_witness :
    ∃ whos, runPar [⟨"p1", SubResult.err⟩, ⟨"p2", SubResult.err⟩] =
      ParResult.failed whos ∧ "p2" ∈ whos :=
  (C6_parallel_collects_all_failures
      [⟨"p1", SubResult.err⟩, ⟨"p2", SubResult.err⟩]
      ⟨"p2", SubResult.err⟩ (by decide)).2.1 (by decide)

/-- A token of a shell-command template: literal text or a parameter
reference to be interpolated. -/
inductive Tok where
  | lit (s : String)
  | param (name : String)
deriving DecidableEq, Repr

/-- Modelled from the spec: the rendering-relevant fields of a `ShellCommand`
recipe of the missing engine — command template, interpolation parameters,
and the set of redacted parameter names (values that must never be rendered
into logs). -/
structure ShellCmd where
  template : List Tok
  params : List (String × String)
  redacted : List String
deriving DecidableEq, Repr

/-- The true value bound to a parameter name (empty if unbound). -/
def valueOfParam (ps : List (String × String)) (n : String) : String :=
  match alookup ps n with
  | some v => v
  | none => ""

/-- Placeholder text substituted for redacted parameters in log lines. -/
def redactedPlaceholder : String := "<redacted>"

/-- Modelled from the spec: rendering the child process's actual argument
vector — every parameter reference is substituted with its true value. -/
def renderArgv (c : ShellCmd) : List String :=
  c.template.map (fun t =>
    match t with
    | Tok.lit s => s
    | Tok.param n => valueOfParam c.params n)

/-- Modelled from the spec: rendering a generated log line — parameter names
in the redacted set are substituted with placeholder text, all others with
their true value. -/
def renderLog (c : ShellCmd) : List String :=
  c.template.map (fun t =>
    match t with
    | Tok.lit s => s
    | Tok.param n =>
      if n ∈ c.redacted then redactedPlaceholder else valueOfParam c.params n)

/-- All logged/echoed text produced by one invocation of the command: the
echoed command line, and on a non-zero exit status additionally the error
report quoting the rendered command line again.  Both use the redacted
rendering. -/
def logLines (c : ShellCmd) (exitStatus : Nat) : List String :=
  if exitStatus = 0 then renderLog c else renderLog c ++ renderLog c

/-- The literal text fragments of a command template. -/
def templateLits (c : ShellCmd) : List String :=
  c.template.filterMap (fun t =>
    match t with
    | Tok.lit s => some s
    | Tok.param _ => none)

/-- The true values of the non-redacted parameters referenced by the
template (these legitimately appear in log lines). -/
def nonRedactedValues (c : ShellCmd) : List String :=
  c.template.filterMap (fun t =>
    match t with
    | Tok.lit _ => none
    | Tok.param q =>
      if q ∈ c.redacted then none else some (valueOfParam c.params q))

/-- Claim C7: for a `ShellCommand` with a parameter in the redacted set, the
parameter's literal value never appears in logged/echoed text regardless of
exit status (the placeholder appears instead), while the true value is
substituted into the actual argument vector; moreover the log output does not
depend on the values of redacted parameters at all. -/
theorem C7_redacted_never_logged (c : ShellCmd) (p v : String) (status : Nat)
    (hp : p ∈ c.redacted) (hv : valueOfParam c.params p = v)
    (hlit : v ∉ templateLits c) (hother : v ∉ nonRedactedValues c)
    (hph : v ≠ redactedPlaceholder) :
    v ∉ logLines c status ∧
    (Tok.param p ∈ c.template →
      v ∈ renderArgv c ∧ redactedPlaceholder ∈ renderLog c) ∧
    (∀ c2 : ShellCmd, c2.template = c.template → c2.redacted = c.redacted →
      (∀ q, q ∉ c.redacted → valueOfParam c2.params q = valueOfParam c.params q) →
      renderLog c2 = renderLog c) := by
  have hlog : v ∉ renderLog c := by
    intro hmem
    unfold renderLog at hmem
    obtain ⟨t, hts, hf⟩ := List.mem_map.mp hmem
    cases t with
    | lit s =>
      exact hlit (List.mem_filterMap.mpr ⟨Tok.lit s, hts, by simpa using hf⟩)
    | param q =>
      by_cases hq : q ∈ c.redacted
      · simp only [hq, if_pos] at hf
        exact hph hf.symm
      · refine hother (List.mem_filterMap.mpr ⟨Tok.param q, hts, ?_⟩)
        simp only [hq, if_neg, not_false_iff] at hf ⊢
        simpa using hf
  refine ⟨?_, ?_, ?_⟩
  · unfold logLines
    by_cases h0 : status = 0
    · simpa [h0] using hlog
    · simp only [h0, if_neg, not_false_iff, List.mem_append]
      exact fun h => h.elim hlog hlog
  · intro hin
    constructor
    · unfold renderArgv
      exact hv ▸ List.mem_map.mpr ⟨Tok.param p, hin, rfl⟩
    · unfold renderLog
      exact List.mem_map.mpr ⟨Tok.param p, hin, by simp [hp]⟩
  · intro c2 htmpl hred hagree
    unfold renderLog
    rw [htmpl]
    apply List.map_congr_left
    intro t _
    cases t with
    | lit s => rfl
    | param q =>
      rw [hred]
      by_cases hq : q ∈ c.redacted
      · simp [hq]
      · simp [hq, hagree q hq]

/-- The PyPI-upload command of `build.py` (`upload_to_pypi`): the `password`
parameter is redacted. -/
def pypiCmd : ShellCmd :=
  { template := [Tok.lit "twine", Tok.lit "upload", Tok.lit "-u",
      Tok.param "PYPI_USERNAME", Tok.lit "-p", Tok.param "password",
      Tok.param "input"],
    params := [("PYPI_USERNAME", "lainproliant"), ("password", "hunter2"),
      ("input", "dist/jotdown.tar.gz")],
    redacted := ["password"] }

theorem C7_redacted_never_logged_witness :
    "hunter2" ∉ logLines pypiCmd 1 ∧
      "hunter2" ∈ renderArgv pypiCmd ∧ redactedPlaceholder ∈ renderLog pypiCmd :=
  have h := C7_redacted_never_logged pypiCmd "password" "hunter2" 1
    (by decide) (by decide) (by decide) (by decide) (by decide)
  ⟨h.1, h.2.1 (by decide)⟩

/-- Modelled from the spec: a Staleness Record of the missing cache engine —
the declared output path, its recorded fingerprint, and the recorded
fingerprint of each declared input.  A fingerprint is abstracted as a
natural number; a missing file has none. -/
structure SRecord where
  output_path : String
  output_fingerprint : Nat
  input_fingerprints : List (String × Nat)
deriving DecidableEq, Repr

/-- Current fingerprint of a path in the (association-list) filesystem:
`none` means the file is missing. -/
def fpOf (fs : List (String × Nat)) (p : String) : Option Nat :=
  alookup fs p

/-- Modelled from the spec: the cache engine's `should_execute` decision for
a file-producing node — execute iff no record exists, or the declared output
is missing, or some declared input's current fingerprint differs from the
recorded one. -/
def should_execute (sr : Option SRecord) (fs : List (String × Nat)) : Bool :=
  match sr with
  | none => true
  | some r =>
    (fpOf fs r.output_path).isNone ||
      r.input_fingerprints.any (fun q => decide (fpOf fs q.1 ≠ some q.2))

/-- Modelled from the spec: resolving a file-producing node against the cache
— when `should_execute` is false the previously recorded output path is
propagated to dependents unchanged with zero recipe executions; otherwise the
recipe executes once and yields the fresh output. -/
def resolveFileNode (freshOutput : String) (sr : Option SRecord)
    (fs : List (String × Nat)) : String × Nat :=
  match sr with
  | none => (freshOutput, 1)
  | some r =>
    if should_execute (some r) fs then (freshOutput, 1) else (r.output_path, 0)

/-- Claim C3: `should_execute` returns true exactly when no staleness record
exists, or the declared output file is missing, or some declared input's
current fingerprint differs from the recorded one; in every other case it
returns false and the previously recorded output path is propagated to
dependents unchanged with zero executions. -/
theorem C3_should_execute_policy (sr : Option SRecord) (fs : List (String × Nat))
    (freshOutput : String) :
    (should_execute sr fs = true ↔
      sr = none ∨ ∃ r, sr = some r ∧
        (fpOf fs r.output_path = none ∨
          ∃ q ∈ r.input_fingerprints, fpOf fs q.1 ≠ some q.2)) ∧
    (should_execute sr fs = false →
      ∃ r, sr = some r ∧ resolveFileNode freshOutput sr fs = (r.output_path, 0)) := by
  constructor
  · cases sr with
    | none => simp [should_execute]
    | some r =>
      simp only [should_execute, Bool.or_eq_true, Option.isNone_iff_eq_none,
        List.any_eq_true, decide_eq_true_eq]
      constructor
      · rintro (h | ⟨q, hq, hne⟩)
        · exact Or.inr ⟨r, rfl, Or.inl h⟩
        · exact Or.inr ⟨r, rfl, Or.inr ⟨q, hq, hne⟩⟩
      · rintro (h | ⟨r2, hr2, h⟩)
        · exact absurd h (by simp)
        · obtain rfl : r = r2 := by injection hr2
          rcases h with h | ⟨q, hq, hne⟩
          · exact Or.inl h
          · exact Or.inr ⟨q, hq, hne⟩
  · intro h
    cases sr with
    | none => simp [should_execute] at h
    | some r => exact ⟨r, rfl, by simp [resolveFileNode, h]⟩

theorem C3_should_execute_policy_witness :
    should_execute (some ⟨"out.o", 7, [("in.cpp", 3)]⟩)
        [("out.o", 7), ("in.cpp", 3)] = false →
      ∃ r, (some ⟨"out.o", 7, [("in.cpp", 3)]⟩ : Option SRecord) = some r ∧
        resolveFileNode "fresh.o" (some ⟨"out.o", 7, [("in.cpp", 3)]⟩)
          [("out.o", 7), ("in.cpp", 3)] = (r.output_path, 0) :=
  (C3_should_execute_policy (some ⟨"out.o", 7, [("in.cpp", 3)]⟩)
    [("out.o", 7), ("in.cpp", 3)] "fresh.o").2

/-- Modelled from the spec: a node as the cache engine sees it — name, an
optional declared output file (file-producing when present), and declared
input files.  Nodes without a file output (plain providers / computed
values) are memoized only within one invocation and recomputed across
invocations (spec section 4.3). -/
structure BNode where
  name : String
  fileOutput : Option String
  inputs : List String
deriving DecidableEq, Repr

/-- State threaded through one invocation: the durable staleness store, the
filesystem, the per-node resolved results, and the number of recipe
executions performed. -/
structure InvState where
  store : List (String × SRecord)
  fs : List (String × Nat)
  results : List (String × String)
  execs : Nat
deriving DecidableEq, Repr

/-- Write fingerprint `v` for path `p` (prepend; `alookup` takes the first
match). -/
def setFp (fs : List (String × Nat)) (p : String) (v : Nat) : List (String × Nat) :=
  (p, v) :: fs

/-- Fingerprint the declared inputs that currently exist. -/
def recordInputs (inputs : List String) (fs : List (String × Nat)) :
    List (String × Nat) :=
  inputs.filterMap (fun i => (fpOf fs i).map (fun f => (i, f)))

/-- Modelled from the spec: executing a file-producing recipe — the output
file is produced, and a fresh staleness record (recomputed fingerprints for
all declared inputs and outputs) is persisted after the successful
execution. -/
def executeFile (st : InvState) (node : BNode) (p : String) : InvState :=
  { store := (node.name, ⟨p, 1, recordInputs node.inputs (setFp st.fs p 1)⟩) :: st.store,
    fs := setFp st.fs p 1,
    results := st.results ++ [(node.name, p)],
    execs := st.execs + 1 }

/-- Modelled from the spec: the scheduling decision for one node — a
file-producing node consults `should_execute` against its staleness record
and on a cache hit propagates the recorded output path unchanged; a node
without a file output always executes. -/
def stepNode (st : InvState) (node : BNode) : InvState :=
  match node.fileOutput with
  | none =>
    { st with results := st.results ++ [(node.name, "")], execs := st.execs + 1 }
  | some p =>
    match alookup st.store node.name with
    | none => executeFile st node p
    | some r =>
      if should_execute (some r) st.fs then executeFile st node p
      else { st with results := st.results ++ [(node.name, r.output_path)] }

/-- One invocation: process the graph's nodes in order. -/
def runInv : InvState → List BNode → InvState
  | st, [] => st
  | st, node :: rest => runInv (stepNode st node) rest

/-- Initial invocation state over a given staleness store and filesystem. -/
def initInv (store : List (String × SRecord)) (fs : List (String × Nat)) : InvState :=
  ⟨store, fs, [], 0⟩

/-- The declared output files of a node list. -/
def outputsOf (g : List BNode) : List String :=
  g.filterMap (fun n => n.fileOutput)

/-- Well-formedness for the idempotence property: every node is
file-producing, outputs and names are fresh, and every declared input is
either the output of an earlier node or an external file (not the output of
any node). -/
def fileWfAux (allOuts : List String) :
    List String → List String → List BNode → Bool
  | _, _, [] => true
  | seenOuts, seenNames, node :: rest =>
    match node.fileOutput with
    | none => false
    | some p =>
      decide (p ∉ seenOuts) && decide (node.name ∉ seenNames) &&
        node.inputs.all (fun i => decide (i ∈ seenOuts) || decide (i ∉ allOuts)) &&
        fileWfAux allOuts (seenOuts ++ [p]) (seenNames ++ [node.name]) rest

/-- A graph of file-producing nodes, in dependency order, with distinct
outputs and names. -/
def fileWf (g : List BNode) : Bool :=
  fileWfAux (outputsOf g) [] [] g

/-- First invocation over graph `g` from an empty staleness store. -/
def firstRun (g : List BNode) (fs0 : List (String × Nat)) : InvState :=
  runInv (initInv [] fs0) g

/-- Second, identical invocation: same graph, the store and filesystem left
by the first invocation, all declared inputs unchanged. -/
def secondRun (g : List BNode) (fs0 : List (String × Nat)) : InvState :=
  runInv (initInv (firstRun g fs0).store (firstRun g fs0).fs) g

lemma outputsOf_cons {node : BNode} {rest : List BNode} {p : String}
    (hp : node.fileOutput = some p) :
    outputsOf (node :: rest) = p :: outputsOf rest := by
  simp [outputsOf, hp]

lemma fileWfAux_cons {allOuts seenOuts seenNames : List String} {node : BNode}
    {rest : List BNode}
    (h : fileWfAux allOuts seenOuts seenNames (node :: rest) = true) :
    ∃ p, node.fileOutput = some p ∧ p ∉ seenOuts ∧ node.name ∉ seenNames ∧
      (∀ i ∈ node.inputs, i ∈ seenOuts ∨ i ∉ allOuts) ∧
      fileWfAux allOuts (seenOuts ++ [p]) (seenNames ++ [node.name]) rest = true := by
  cases hp : node.fileOutput with
  | none => simp [fileWfAux, hp] at h
  | some p =>
    simp only [fileWfAux, hp, Bool.and_eq_true, decide_eq_true_eq,
      List.all_eq_true, Bool.or_eq_true] at h
    exact ⟨p, rfl, h.1.1.1, h.1.1.2, h.1.2, h.2⟩

lemma fileWf_disjoint (g : List BNode) :
    ∀ allOuts seenOuts seenNames,
      fileWfAux allOuts seenOuts seenNames g = true →
      (∀ q ∈ outputsOf g, q ∉ seenOuts) ∧
        (∀ n ∈ g.map BNode.name, n ∉ seenNames) := by
  induction g with
  | nil => simp [outputsOf]
  | cons node rest ih =>
    intro allOuts so sn h
    obtain ⟨p, hp, hpso, hnsn, _, h'⟩ := fileWfAux_cons h
    obtain ⟨ihO, ihN⟩ := ih allOuts (so ++ [p]) (sn ++ [node.name]) h'
    constructor
    · intro q hq
      rw [outputsOf_cons hp, List.mem_cons] at hq
      rcases hq with rfl | hq
      · exact hpso
      · intro hmem
        exact ihO q hq (by simp [hmem])
    · intro n hn
      simp only [List.map_cons, List.mem_cons] at hn
      rcases hn with rfl | hn
      · exact hnsn
      · intro hmem
        exact ihN n hn (by simp [hmem])

lemma recordInputs_mem {inputs : List String} {fs : List (String × Nat)}
    {i : String} {f : Nat} (h : (i, f) ∈ recordInputs inputs fs) :
    i ∈ inputs ∧ fpOf fs i = some f := by
  obtain ⟨a, ha, hfa⟩ := List.mem_filterMap.mp h
  cases hfp : fpOf fs a with
  | none => rw [hfp] at hfa; simp at hfa
  | some v =>
    rw [hfp] at hfa
    simp only [Option.map_some', Option.some_inj, Prod.mk.injEq] at hfa
    obtain ⟨h1, h2⟩ := hfa
    subst h1
    subst h2
    exact ⟨ha, hfp⟩

lemma runInv_fresh (rest : List BNode) :
    ∀ (st : InvState) (allOuts seenOuts seenNames : List String),
      fileWfAux allOuts seenOuts seenNames rest = true →
      (∀ q ∈ outputsOf rest, q ∈ allOuts) →
      (∀ n ∈ st.store.map Prod.fst, n ∈ seenNames) →
      (∀ q, q ∉ outputsOf rest → fpOf (runInv st rest).fs q = fpOf st.fs q) ∧
      (∀ n, n ∉ rest.map BNode.name →
        alookup (runInv st rest).store n = alookup st.store n) ∧
      (∀ node ∈ rest, ∃ r p, node.fileOutput = some p ∧
        alookup (runInv st rest).store node.name = some r ∧
        r.output_path = p ∧ should_execute (some r) (runInv st rest).fs = false) ∧
      ((runInv st rest).results =
        st.results ++ rest.map (fun n => (n.name, n.fileOutput.getD ""))) ∧
      ((runInv st rest).execs = st.execs + rest.length) := by
  induction rest with
  | nil =>
    intro st allOuts so sn _ _ _
    exact ⟨fun q _ => rfl, fun n _ => rfl, by simp, by simp [runInv],
      by simp [runInv]⟩
  | cons node rest ih =>
    intro st allOuts so sn hwf hall hkeys
    obtain ⟨p, hp, hpso, hnsn, hinputs, hwf'⟩ := fileWfAux_cons hwf
    have hlook : alookup st.store node.name = none :=
      alookup_eq_none_of_not_mem (fun hm => hnsn (hkeys node.name hm))
    have hrun : runInv st (node :: rest) = runInv (executeFile st node p) rest := by
      simp [runInv, stepNode, hp, hlook]
    have hall' : ∀ q ∈ outputsOf rest, q ∈ allOuts := by
      intro q hq
      exact hall q (by rw [outputsOf_cons hp]; exact List.mem_cons_of_mem p hq)
    have hkeys' : ∀ n ∈ (executeFile st node p).store.map Prod.fst,
        n ∈ sn ++ [node.name] := by
      intro n hn
      simp only [executeFile, List.map_cons, List.mem_cons] at hn
      rcases hn with rfl | hn
      · simp
      · exact List.mem_append_left _ (hkeys n hn)
    obtain ⟨I1, I2, I3, I4, I5⟩ := ih (executeFile st node p) allOuts (so ++ [p])
      (sn ++ [node.name]) hwf' hall' hkeys'
    obtain ⟨hdO, hdN⟩ := fileWf_disjoint rest allOuts (so ++ [p])
      (sn ++ [node.name]) hwf'
    have hpnotrest : p ∉ outputsOf rest := fun hm => hdO p hm (by simp)
    have hnnotrest : node.name ∉ rest.map BNode.name :=
      fun hm => hdN node.name hm (by simp)
    have hfsp : fpOf (runInv (executeFile st node p) rest).fs p = some 1 := by
      rw [I1 p hpnotrest]
      simp [executeFile, setFp, fpOf, alookup]
    refine ⟨?_, ?_, ?_, ?_, ?_⟩
    · intro q hq
      rw [outputsOf_cons hp, List.mem_cons] at hq
      push_neg at hq
      have hpq : p ≠ q := fun h => hq.1 h.symm
      rw [hrun, I1 q hq.2]
      simp [executeFile, setFp, fpOf, alookup, hpq]
    · intro n hn
      simp only [List.map_cons, List.mem_cons] at hn
      push_neg at hn
      have hne : node.name ≠ n := fun h => hn.1 h.symm
      rw [hrun, I2 n hn.2]
      simp [executeFile, alookup, hne]
    · intro node2 hnode2
      rcases List.mem_cons.mp hnode2 with rfl | hnode2
      · refine ⟨⟨p, 1, recordInputs node2.inputs (setFp st.fs p 1)⟩, p, hp, ?_, rfl, ?_⟩
        · rw [hrun, I2 node2.name hnnotrest]
          simp [executeFile, alookup]
        · rw [hrun]
          simp only [should_execute, Bool.or_eq_false_iff]
          constructor
          · simp only [hfsp]
            rfl
          · rw [List.any_eq_false]
            intro q hq
            obtain ⟨i, f⟩ := q
            obtain ⟨hqin, hqfp⟩ := recordInputs_mem hq
            have hinotrest : i ∉ outputsOf rest := by
              rcases hinputs i hqin with hso | hnall
              · intro hm
                exact hdO i hm (List.mem_append_left _ hso)
              · intro hm
                exact hnall (hall' i hm)
            have : fpOf (runInv (executeFile st node2 p) rest).fs i = some f := by
              rw [I1 i hinotrest]
              exact hqfp
            simp [this]
      · obtain ⟨r, p2, h1, h2, h3, h4⟩ := I3 node2 hnode2
        exact ⟨r, p2, h1, by rw [hrun]; exact h2, h3, by rw [hrun]; exact h4⟩
    · rw [hrun, I4]
      simp [executeFile, hp]
    · rw [hrun, I5]
      simp only [executeFile, List.length_cons]
      omega

lemma runInv_cached (rest : List BNode) :
    ∀ st : InvState,
      (∀ node ∈ rest, ∃ r p, node.fileOutput = some p ∧
        alookup st.store node.name = some r ∧ r.output_path = p ∧
        should_execute (some r) st.fs = false) →
      (runInv st rest).execs = st.execs ∧ (runInv st rest).fs = st.fs ∧
      (runInv st rest).store = st.store ∧
      (runInv st rest).results =
        st.results ++ rest.map (fun n => (n.name, n.fileOutput.getD "")) := by
  induction rest with
  | nil =>
    intro st _
    exact ⟨rfl, rfl, rfl, by simp [runInv]⟩
  | cons node rest ih =>
    intro st hc
    obtain ⟨r, p, hp, hl, hop, hse⟩ := hc node (by simp)
    have hstep : stepNode st node =
        { st with results := st.results ++ [(node.name, r.output_path)] } := by
      simp [stepNode, hp, hl, hse]
    have hrun : runInv st (node :: rest) =
        runInv ({ st with results := st.results ++ [(node.name, r.output_path)] }) rest := by
      simp [runInv, hstep]
    have hc' : ∀ node2 ∈ rest, ∃ r2 p2, node2.fileOutput = some p2 ∧
        alookup ({ st with results := st.results ++ [(node.name, r.output_path)] } :
          InvState).store node2.name = some r2 ∧ r2.output_path = p2 ∧
        should_execute (some r2)
          ({ st with results := st.results ++ [(node.name, r.output_path)] } :
            InvState).fs = false :=
      fun node2 h2 => hc node2 (List.mem_cons_of_mem node h2)
    obtain ⟨I1, I2, I3, I4⟩ := ih _ hc'
    rw [hrun]
    refine ⟨I1, I2, I3, ?_⟩
    rw [I4]
    simp [hp, hop]

/-- Counterexample to claim C4 as stated: a single-node graph whose node is a
provider without a file output.  Per the spec (section 4.3) such providers
are memoized only within one invocation, so the second identical invocation
re-executes it: its execution count is 1, not 0. -/
theorem C4_counterexample :
    ¬ (runInv (initInv (runInv (initInv [] []) [⟨"v", none, []⟩]).store
        (runInv (initInv [] []) [⟨"v", none, []⟩]).fs) [⟨"v", none, []⟩]).execs = 0 := by
  decide

/-- Claim C4 (amended): for every graph of file-producing nodes — pairwise
distinct outputs and names, each declared input either the output of an
earlier node or an external file — and every starting filesystem, running the
identical invocation a second time with all declared inputs unchanged
performs zero recipe executions (every node resolves via cache hit), leaves
the filesystem and the staleness store untouched, and hands dependents
exactly the same results as the first run. -/
theorem C4_second_run_cached (g : List BNode) (fs0 : List (String × Nat))
    (hwf : fileWf g = true) :
    (secondRun g fs0).execs = 0 ∧
    (secondRun g fs0).results = (firstRun g fs0).results ∧
    (secondRun g fs0).fs = (firstRun g fs0).fs ∧
    (secondRun g fs0).store = (firstRun g fs0).store := by
  have hall : ∀ q ∈ outputsOf g, q ∈ outputsOf g := fun q hq => hq
  have hkeys : ∀ n ∈ (initInv [] fs0).store.map Prod.fst, n ∈ ([] : List String) := by
    intro n hn
    simp [initInv] at hn
  obtain ⟨F1, F2, F3, F4, F5⟩ :=
    runInv_fresh g (initInv [] fs0) (outputsOf g) [] [] hwf hall hkeys
  have hcache : ∀ node ∈ g, ∃ r p, node.fileOutput = some p ∧
      alookup (initInv (firstRun g fs0).store (firstRun g fs0).fs).store node.name =
        some r ∧ r.output_path = p ∧
      should_execute (some r)
        (initInv (firstRun g fs0).store (firstRun g fs0).fs).fs = false := by
    intro node hnode
    obtain ⟨r, p, h1, h2, h3, h4⟩ := F3 node hnode
    exact ⟨r, p, h1, h2, h3, h4⟩
  obtain ⟨S1, S2, S3, S4⟩ := runInv_cached g _ hcache
  refine ⟨?_, ?_, ?_, ?_⟩
  · rw [secondRun, S1]
    rfl
  · rw [secondRun, S4, firstRun, F4]
    rfl
  · rw [secondRun, S2]
    rfl
  · rw [secondRun, S3]
    rfl

/-- A concrete two-node compile-and-link pipeline used to witness the
amended claim C4. -/
def pipelineGraph : List BNode :=
  [⟨"compile", some "out.o", ["in.cpp"]⟩, ⟨"link", some "app", ["out.o"]⟩]

theorem C4_second_run_cached_witness :
    (secondRun pipelineGraph [("in.cpp", 5)]).execs = 0 ∧
    (secondRun pipelineGraph [("in.cpp", 5)]).results =
      (firstRun pipelineGraph [("in.cpp", 5)]).results ∧
    (secondRun pipelineGraph [("in.cpp", 5)]).fs =
      (firstRun pipelineGraph [("in.cpp", 5)]).fs ∧
    (secondRun pipelineGraph [("in.cpp", 5)]).store =
      (firstRun pipelineGraph [("in.cpp", 5)]).store :=
  C4_second_run_cached pipelineGraph [("in.cpp", 5)] (by decide)

/-- Walk dependency edges inside the stuck node set to produce the offending
cycle's node sequence for the error report. -/
def walkCycle (stuck : List ANode) : Nat → String → List String → List String
  | 0, _, acc => acc
  | fuel + 1, cur, acc =>
    if cur ∈ acc then (acc.dropWhile (fun x => x != cur)) ++ [cur]
    else
      match stuck.find? (fun nd => nd.name == cur) with
      | none => acc ++ [cur]
      | some nd =>
        match nd.deps.find? (fun d => decide (d ∈ stuck.map ANode.name)) with
        | none => acc ++ [cur]
        | some d => walkCycle stuck fuel d (acc ++ [cur])

/-- Extract a cycle witness from a non-empty set of mutually blocked nodes. -/
def extractCycle (stuck : List ANode) : List String :=
  match stuck with
  | [] => []
  | nd :: _ => walkCycle stuck (stuck.length + 1) nd.name []

/-- Modelled from the spec: full-graph validation of the missing engine —
repeatedly move every node whose dependencies are already placed into the
order; if no node is ready while some remain, report `CycleDetectedError`
with an offending node sequence. -/
def topoSortAux : Nat → List String → List ANode →
    Except (List String) (List String)
  | _, order, [] => Except.ok order
  | 0, _, nd0 :: rest => Except.error (extractCycle (nd0 :: rest))
  | fuel + 1, order, nd0 :: rest =>
    match (nd0 :: rest).partition
        (fun nd => nd.deps.all (fun d => decide (d ∈ order))) with
    | ([], stuck) => Except.error (extractCycle stuck)
    | (ready, others) =>
      topoSortAux fuel (order ++ ready.map ANode.name) others

/-- Modelled from the spec: `resolve` validates the whole graph before any
scheduling starts, returning either a topological order or
`CycleDetectedError` carrying the offending cycle's node sequence. -/
def resolve (g : List ANode) : Except (List String) (List String) :=
  topoSortAux g.length [] g

/-- Modelled from the spec: an invocation resolves first; a validation error
aborts with no execution at all (zero `Running` transitions), otherwise the
scheduler runs the graph. -/
def runResolved (g : List ANode) :
    Except (List String) (List String) × List String :=
  match resolve g with
  | Except.error c => (Except.error c, [])
  | Except.ok order => (Except.ok order, executedNodes g)

/-- `a` was placed strictly before `b` in the output order: some prefix of
the order contains `a` but not `b`. -/
def PlacedBefore (out : List String) (a b : String) : Prop :=
  ∃ pre, pre <+: out ∧ a ∈ pre ∧ b ∉ pre

lemma placedBefore_irrefl {out : List String} {a : String}
    (h : PlacedBefore out a a) : False := by
  obtain ⟨pre, _, h1, h2⟩ := h
  exact h2 h1

lemma placedBefore_trans {out : List String} {a b c : String}
    (h1 : PlacedBefore out a b) (h2 : PlacedBefore out b c) :
    PlacedBefore out a c := by
  obtain ⟨p1, hp1, ha1, hb1⟩ := h1
  obtain ⟨p2, hp2, hb2, hc2⟩ := h2
  rcases List.prefix_or_prefix_of_prefix hp1 hp2 with h12 | h21
  · exact ⟨p2, hp2, h12.subset ha1, hc2⟩
  · exact absurd (h21.subset hb2) hb1

lemma topoSortAux_sound :
    ∀ (fuel : Nat) (order : List String) (pending : List ANode)
      (out : List String),
      (pending.map ANode.name).Nodup →
      (∀ nd ∈ pending, nd.name ∉ order) →
      topoSortAux fuel order pending = Except.ok out →
      order <+: out ∧
      ∀ nd ∈ pending, ∃ pre, pre <+: out ∧ (∀ d ∈ nd.deps, d ∈ pre) ∧
        nd.name ∉ pre ∧ nd.name ∈ out := by
  intro fuel
  induction fuel with
  | zero =>
    intro order pending out _ _ hok
    cases pending with
    | nil =>
      simp only [topoSortAux, Except.ok.injEq] at hok
      subst hok
      exact ⟨ List.prefix_refl _, by simp⟩
    | cons nd rest => simp [topoSortAux] at hok
  | succ fuel ih =>
    intro order pending out hnd hdisj hok
    cases hpend : pending with
    | nil =>
      subst hpend
      simp only [topoSortAux, Except.ok.injEq] at hok
      subst hok
      exact ⟨ List.prefix_refl _, by simp⟩
    | cons nd0 rest =>
      subst hpend
      rw [topoSortAux,
        List.partition_eq_filter_filter (fun nd : ANode =>
          nd.deps.all (fun d => decide (d ∈ order))) (nd0 :: rest)] at hok
      set pend := nd0 :: rest with hpendDef
      set pred := fun nd : ANode => nd.deps.all (fun d => decide (d ∈ order))
        with hpredDef
      cases hready : pend.filter pred with
      | nil =>
        rw [hready] at hok
        simp at hok
      | cons r0 rs =>
        rw [hready] at hok
        have hothers_sub : List.Sublist (pend.filter (fun a => !pred a)) pend :=
          List.filter_sublist pend
        have hready_sub : List.Sublist (pend.filter pred) pend :=
          List.filter_sublist pend
        have hothers_nodup :
            ((pend.filter (fun a => !pred a)).map ANode.name).Nodup :=
          (hothers_sub.map ANode.name).nodup hnd
        have hperm :
            ((pend.filter pred) ++ pend.filter (fun a => !pred a)).Perm pend :=
          List.filter_append_perm pred pend
        have hnd2 :
            (((pend.filter pred).map ANode.name) ++
              ((pend.filter (fun a => !pred a)).map ANode.name)).Nodup := by
          rw [← List.map_append]
          exact ((hperm.map ANode.name).nodup_iff).mpr hnd
        have hdisjRO :
            List.Disjoint ((pend.filter pred).map ANode.name)
              ((pend.filter (fun a => !pred a)).map ANode.name) :=
          List.disjoint_of_nodup_append hnd2
        have hdisj' : ∀ nd ∈ pend.filter (fun a => !pred a),
            nd.name ∉ order ++ (r0 :: rs).map ANode.name := by
          intro nd hmem
          rw [List.mem_append]
          push_neg
          refine ⟨hdisj nd (hothers_sub.subset hmem), ?_⟩
          rw [← hready]
          intro hmem2
          exact hdisjRO hmem2 (List.mem_map_of_mem ANode.name hmem)
        obtain ⟨horder', hrest'⟩ := ih (order ++ (r0 :: rs).map ANode.name)
          (pend.filter (fun a => !pred a)) out hothers_nodup hdisj' hok
        have horder : order <+: out :=
          (List.prefix_append order ((r0 :: rs).map ANode.name)).trans horder'
        refine ⟨horder, ?_⟩
        intro nd hmem
        by_cases hpnd : pred nd = true
        · have hmemready : nd ∈ pend.filter pred := List.mem_filter.mpr ⟨hmem, hpnd⟩
          have hdeps : ∀ d ∈ nd.deps, d ∈ order := by
            intro d hd
            have := List.all_eq_true.mp hpnd d hd
            simpa using this
          have hnameout : nd.name ∈ out := by
            apply horder'.subset
            rw [List.mem_append, ← hready]
            exact Or.inr (List.mem_map_of_mem ANode.name hmemready)
          exact ⟨order, horder, hdeps, hdisj nd hmem, hnameout⟩
        · have hmemothers : nd ∈ pend.filter (fun a => !pred a) :=
            List.mem_filter.mpr ⟨hmem, by simp [hpnd]⟩
          exact hrest' nd hmemothers

lemma resolve_ok_ranked (g : List ANode) (out : List String)
    (hnd : (g.map ANode.name).Nodup) (hok : resolve g = Except.ok out) :
    ∀ nd ∈ g, ∃ pre, pre <+: out ∧ (∀ d ∈ nd.deps, d ∈ pre) ∧
      nd.name ∉ pre ∧ nd.name ∈ out :=
  (topoSortAux_sound g.length [] g out hnd (by simp) hok).2

lemma dependsOn_placedBefore {g : List ANode} {out : List String}
    (hnd : (g.map ANode.name).Nodup) (hok : resolve g = Except.ok out) :
    ∀ {a b : String}, DependsOn g a b → PlacedBefore out b a := by
  intro a b h
  induction h with
  | direct hd =>
    obtain ⟨node, hnode, hname, hdeps⟩ := depsOf_mem_node hd
    obtain ⟨pre, hpre, hall, hnotin, _⟩ := resolve_ok_ranked g out hnd hok node hnode
    exact ⟨pre, hpre, hall _ (by rw [hdeps]; exact hd), by rw [← hname]; exact hnotin⟩
  | indirect hd _ ih =>
    obtain ⟨node, hnode, hname, hdeps⟩ := depsOf_mem_node hd
    obtain ⟨pre, hpre, hall, hnotin, _⟩ := resolve_ok_ranked g out hnd hok node hnode
    exact placedBefore_trans ih
      ⟨pre, hpre, hall _ (by rw [hdeps]; exact hd), by rw [← hname]; exact hnotin⟩

/-- The spec's concrete cyclic graph `A → B → A`. -/
def cycleGraph : List ANode :=
  [⟨"A", ["B"], true⟩, ⟨"B", ["A"], true⟩]

/-- Claim C8: for every graph whose dependency relation has a cycle,
`resolve` reports `CycleDetectedError` (with an offending node sequence)
before any execution begins, and no recipe runs in that invocation — zero
`Running` transitions; concretely, for `A → B → A` the reported sequence is
`A, B, A` and nothing executes. -/
theorem C8_cycle_detected_before_execution (g : List ANode) (n : String)
    (hnd : (g.map ANode.name).Nodup) (hcyc : DependsOn g n n) :
    (∃ c, resolve g = Except.error c) ∧ (runResolved g).2 = [] ∧
    resolve cycleGraph = Except.error ["A", "B", "A"] ∧
    (runResolved cycleGraph).2 = [] := by
  have herr : ∃ c, resolve g = Except.error c := by
    cases hres : resolve g with
    | error c => exact ⟨c, rfl⟩
    | ok out =>
      exact absurd (dependsOn_placedBefore hnd hres hcyc) placedBefore_irrefl
  obtain ⟨c, hc⟩ := herr
  refine ⟨⟨c, hc⟩, ?_, by rfl, by rfl⟩
  simp [runResolved, hc]

theorem C8_cycle_detected_before_execution_witness :
    (∃ c, resolve cycleGraph = Except.error c) ∧
      (runResolved cycleGraph).2 = [] ∧
      resolve cycleGraph = Except.error ["A", "B", "A"] ∧
      (runResolved cycleGraph).2 = [] :=
  C8_cycle_detected_before_execution cycleGraph "A" (by decide)
    (DependsOn.indirect (show "B" ∈ depsOf cycleGraph "A" by decide)
      (DependsOn.direct (show "A" ∈ depsOf cycleGraph "B" by decide)))

/-- Modelled from the spec: a schedulable node of the missing engine — a
name, declared dependencies, and whether its recipe is interactive (needs
exclusive ownership of the controlling terminal). -/
structure SNode where
  name : String
  deps : List String
  interactive : Bool
deriving DecidableEq, Repr

/-- Phase of a node during one invocation. -/
inductive Phase where
  | pending
  | running
  | done
deriving DecidableEq, Repr

/-- Phase of node `n` in scheduler state `st` (first match wins; absent
names are pending). -/
def phaseOf (st : List (String × Phase)) (n : String) : Phase :=
  match alookup st n with
  | some p => p
  | none => Phase.pending

/-- Modelled from the spec: the scheduler's transitions.  A node is
dispatched only when every dependency is done; an interactive node is
additionally dispatched only when no interactive node is running (the
guard never restricts non-interactive nodes); a running node may finish. -/
inductive Step (g : List SNode) :
    List (String × Phase) → List (String × Phase) → Prop
  | dispatch (node : SNode) {st : List (String × Phase)} :
      node ∈ g →
      phaseOf st node.name = Phase.pending →
      (∀ d ∈ node.deps, phaseOf st d = Phase.done) →
      (node.interactive = true → ∀ m ∈ g, m.interactive = true →
        phaseOf st m.name ≠ Phase.running) →
      Step g st ((node.name, Phase.running) :: st)
  | finish (node : SNode) {st : List (String × Phase)} :
      node ∈ g →
      phaseOf st node.name = Phase.running →
      Step g st ((node.name, Phase.done) :: st)

/-- Scheduler states reachable from the all-pending initial state. -/
inductive Reachable (g : List SNode) : List (String × Phase) → Prop
  | init : Reachable g []
  | step {st st2 : List (String × Phase)} :
      Reachable g st → Step g st st2 → Reachable g st2

lemma phaseOf_update (st : List (String × Phase)) (n : String) (p : Phase)
    (m : String) :
    phaseOf ((n, p) :: st) m = if n = m then p else phaseOf st m := by
  by_cases h : n = m <;> simp [phaseOf, alookup, h]

lemma sname_inj {g : List SNode} (hnd : (g.map SNode.name).Nodup)
    {m1 m2 : SNode} (h1 : m1 ∈ g) (h2 : m2 ∈ g) (h : m1.name = m2.name) :
    m1 = m2 :=
  List.inj_on_of_nodup_map hnd h1 h2 h

lemma reachable_interactive_excl (g : List SNode)
    (hnd : (g.map SNode.name).Nodup) :
    ∀ st, Reachable g st →
      ∀ m1 ∈ g, ∀ m2 ∈ g, m1.interactive = true → m2.interactive = true →
        phaseOf st m1.name = Phase.running →
        phaseOf st m2.name = Phase.running → m1.name = m2.name := by
  intro st hr
  induction hr with
  | init => intro m1 _ m2 _ _ _ h1 _; simp [phaseOf, alookup] at h1
  | step _ hstep ih =>
    cases hstep with
    | dispatch node hmem hpend hdeps hint =>
      intro m1 hm1 m2 hm2 hi1 hi2 h1 h2
      rw [phaseOf_update] at h1 h2
      by_cases hb : node.interactive = true
      · have hnorun := hint hb
        by_cases e1 : node.name = m1.name
        · by_cases e2 : node.name = m2.name
          · rw [← e1, ← e2]
          · rw [if_neg e2] at h2
            exact absurd h2 (hnorun m2 hm2 hi2)
        · rw [if_neg e1] at h1
          exact absurd h1 (hnorun m1 hm1 hi1)
      · have e1 : node.name ≠ m1.name := by
          intro hEq
          exact hb ((sname_inj hnd hmem hm1 hEq ▸ hi1 : node.interactive = true))
        have e2 : node.name ≠ m2.name := by
          intro hEq
          exact hb ((sname_inj hnd hmem hm2 hEq ▸ hi2 : node.interactive = true))
        rw [if_neg e1] at h1
        rw [if_neg e2] at h2
        exact ih m1 hm1 m2 hm2 hi1 hi2 h1 h2
    | finish node hmem hrun =>
      intro m1 hm1 m2 hm2 hi1 hi2 h1 h2
      rw [phaseOf_update] at h1 h2
      by_cases e1 : node.name = m1.name
      · rw [if_pos e1] at h1
        exact absurd h1 (by simp)
      · by_cases e2 : node.name = m2.name
        · rw [if_pos e2] at h2
          exact absurd h2 (by simp)
        · rw [if_neg e1] at h1
          rw [if_neg e2] at h2
          exact ih m1 hm1 m2 hm2 hi1 hi2 h1 h2

/-- Claim C9: in any reachable scheduler state at most one interactive
recipe is running (interactive recipes are serialized against each other
even when the dependency graph would permit concurrency), while a
non-interactive node whose dependencies are done can always be dispatched —
interactive recipes are never serialized against non-interactive work. -/
theorem C9_interactive_mutual_exclusion (g : List SNode)
    (st : List (String × Phase)) (hnd : (g.map SNode.name).Nodup)
    (hr : Reachable g st) :
    (∀ m1 ∈ g, ∀ m2 ∈ g, m1.interactive = true → m2.interactive = true →
      phaseOf st m1.name = Phase.running →
      phaseOf st m2.name = Phase.running → m1.name = m2.name) ∧
    (∀ st2 (node : SNode), node ∈ g → node.interactive = false →
      phaseOf st2 node.name = Phase.pending →
      (∀ d ∈ node.deps, phaseOf st2 d = Phase.done) →
      Step g st2 ((node.name, Phase.running) :: st2)) := by
  constructor
  · exact reachable_interactive_excl g hnd st hr
  · intro st2 node hmem hni hpend hdeps
    exact Step.dispatch node hmem hpend hdeps (fun hb => absurd hb (by simp [hni]))

/-- A two-interactive-node graph with an idle worker, used to witness C9. -/
def twoInteractiveGraph : List SNode :=
  [⟨"i1", [], true⟩, ⟨"i2", [], true⟩, ⟨"w", [], false⟩]

lemma twoInteractiveReach :
    Reachable twoInteractiveGraph [("i1", Phase.running)] :=
  Reachable.step Reachable.init
    (Step.dispatch ⟨"i1", [], true⟩ (by decide) (by decide) (by decide)
      (by decide))

theorem C9_interactive_mutual_exclusion_witness :
    Step twoInteractiveGraph [("i1", Phase.running)]
      [("w", Phase.running), ("i1", Phase.running)] :=
  (C9_interactive_mutual_exclusion twoInteractiveGraph [("i1", Phase.running)]
    (by decide) twoInteractiveReach).2 [("i1", Phase.running)]
    ⟨"w", [], false⟩ (by decide) (by decide) (by decide) (by decide)

lemma reachable_deps_done (g : List SNode) (hnd : (g.map SNode.name).Nodup) :
    ∀ st, Reachable g st →
      ∀ node ∈ g, phaseOf st node.name ≠ Phase.pending →
        ∀ d ∈ node.deps, phaseOf st d = Phase.done := by
  intro st hr
  induction hr with
  | init => intro node _ hnp; exact absurd rfl hnp
  | step _ hstep ih =>
    cases hstep with
    | dispatch node2 hmem2 hpend2 hdeps2 _ =>
      intro node hmem hnp d hd
      rw [phaseOf_update] at hnp
      rw [phaseOf_update]
      by_cases hne : node2.name = node.name
      · have heq : node2 = node := sname_inj hnd hmem2 hmem hne
        have hd2 : d ∈ node2.deps := by rw [heq]; exact hd
        have hdone := hdeps2 d hd2
        have hdn : node2.name ≠ d := by
          intro hEq
          rw [← hEq, hpend2] at hdone
          simp at hdone
        rw [if_neg hdn]
        exact hdone
      · rw [if_neg hne] at hnp
        have hdone := ih node hmem hnp d hd
        have hdn : node2.name ≠ d := by
          intro hEq
          rw [← hEq, hpend2] at hdone
          simp at hdone
        rw [if_neg hdn]
        exact hdone
    | finish node2 hmem2 hrun2 =>
      intro node hmem hnp d hd
      rw [phaseOf_update] at hnp
      rw [phaseOf_update]
      by_cases hdn : node2.name = d
      · rw [if_pos hdn]
      · rw [if_neg hdn]
        by_cases hne : node2.name = node.name
        · exact ih node hmem (by rw [← hne, hrun2]; decide) d hd
        · rw [if_neg hne] at hnp
          exact ih node hmem hnp d hd

/-- Declared direct dependencies of the node named `n` in an `SNode` graph. -/
def sdepsOf (g : List SNode) (n : String) : List String :=
  match g.find? (fun nd => nd.name == n) with
  | some nd => nd.deps
  | none => []

/-- One breadth-first expansion of the dependency closure. -/
def closureStep (g : List SNode) (acc : List String) : List String :=
  acc ++ ((acc.map (sdepsOf g)).flatten.filter (fun d => decide (d ∉ acc)))

/-- Fuelled transitive-closure computation. -/
def closureFuel (g : List SNode) : Nat → List String → List String
  | 0, acc => acc
  | fuel + 1, acc => closureFuel g fuel (closureStep g acc)

/-- Transitive dependency closure of the requested targets. -/
def closureOf (g : List SNode) (targets : List String) : List String :=
  closureFuel g g.length targets

/-- The dependency graph declared by `build.py` (xeno variant): every task
and provider with the dependency names taken from its parameter list and
explicit `dep=` annotations; tasks whose recipes run interactively
(`run_tests`, `pybind11_tests`) are flagged. -/
def buildGraph : List SNode :=
  [⟨"submodules", [], false⟩,
   ⟨"headers", [], false⟩,
   ⟨"demo_sources", [], false⟩,
   ⟨"test_sources", [], false⟩,
   ⟨"deps", [], false⟩,
   ⟨"pypi_password", [], false⟩,
   ⟨"cc_json", [], false⟩,
   ⟨"demos", ["deps", "demo_sources", "headers"], false⟩,
   ⟨"tests", ["deps", "test_sources", "headers", "submodules"], false⟩,
   ⟨"run_tests", ["tests"], true⟩,
   ⟨"pybind11_tests", ["deps"], true⟩,
   ⟨"pymodule_sources", ["submodules"], false⟩,
   ⟨"pymodule_objects", ["deps", "pymodule_sources", "headers", "run_tests"], false⟩,
   ⟨"pymodule_dev", ["pymodule_objects"], false⟩,
   ⟨"pymodule_sdist", ["deps"], false⟩,
   ⟨"latest_tarball", ["pymodule_sdist"], false⟩,
   ⟨"upload_to_pypi", ["pymodule_sdist", "latest_tarball", "pypi_password"], false⟩,
   ⟨"all", ["demos", "pymodule_dev"], false⟩]

/-- The target marked `default=True` in `build.py`. -/
def buildDefaultTargets : List String := ["all"]

/-- The dependency graph declared by `bake.py` (panifex variant): every
target and provider with the dependency names taken from its parameter
list; interactive tasks flagged as in the source. -/
def bakeGraph : List SNode :=
  [⟨"submodules", [], false⟩,
   ⟨"headers", [], false⟩,
   ⟨"demo_sources", ["submodules"], false⟩,
   ⟨"test_sources", ["submodules"], false⟩,
   ⟨"demos", ["demo_sources", "headers"], false⟩,
   ⟨"tests", ["test_sources", "headers"], false⟩,
   ⟨"run_tests", ["tests"], true⟩,
   ⟨"pybind11_tests", ["submodules"], true⟩,
   ⟨"pymodule_sources", ["submodules"], false⟩,
   ⟨"pymodule_objects", ["pymodule_sources", "headers", "run_tests"], false⟩,
   ⟨"pymodule_dev", ["pymodule_objects"], false⟩,
   ⟨"pymodule_sdist", ["submodules"], false⟩,
   ⟨"pypi_upload", ["pymodule_sdist"], false⟩,
   ⟨"all", ["demos", "pymodule_dev"], false⟩]

/-- The target marked `@default` in `bake.py`. -/
def bakeDefaultTargets : List String := ["all"]

/-- Claim C10: in both build-script variants the no-argument default target
is `all`; the transitive dependency closure of `all` contains `run_tests`
through the chain all → pymodule_dev → pymodule_objects → run_tests; and in
every reachable schedule of either graph, once `pymodule_objects` has been
dispatched (is no longer pending), `run_tests` — compiling and executing
the test binaries — is already done. -/
theorem C10_default_target_runs_tests_first (st1 st2 : List (String × Phase))
    (h1 : Reachable buildGraph st1) (h2 : Reachable bakeGraph st2) :
    buildDefaultTargets = ["all"] ∧ bakeDefaultTargets = ["all"] ∧
    ("pymodule_dev" ∈ sdepsOf buildGraph "all" ∧
     "pymodule_objects" ∈ sdepsOf buildGraph "pymodule_dev" ∧
     "run_tests" ∈ sdepsOf buildGraph "pymodule_objects" ∧
     "run_tests" ∈ closureOf buildGraph buildDefaultTargets) ∧
    ("pymodule_dev" ∈ sdepsOf bakeGraph "all" ∧
     "pymodule_objects" ∈ sdepsOf bakeGraph "pymodule_dev" ∧
     "run_tests" ∈ sdepsOf bakeGraph "pymodule_objects" ∧
     "run_tests" ∈ closureOf bakeGraph bakeDefaultTargets) ∧
    (phaseOf st1 "pymodule_objects" ≠ Phase.pending →
      phaseOf st1 "run_tests" = Phase.done) ∧
    (phaseOf st2 "pymodule_objects" ≠ Phase.pending →
      phaseOf st2 "run_tests" = Phase.done) := by
  refine ⟨rfl, rfl, by decide, by decide, ?_, ?_⟩
  · intro hnp
    exact reachable_deps_done buildGraph (by decide) st1 h1
      ⟨"pymodule_objects", ["deps", "pymodule_sources", "headers", "run_tests"], false⟩
      (by decide) hnp "run_tests" (by decide)
  · intro hnp
    exact reachable_deps_done bakeGraph (by decide) st2 h2
      ⟨"pymodule_objects", ["pymodule_sources", "headers", "run_tests"], false⟩
      (by decide) hnp "run_tests" (by decide)

lemma buildReachState :
    Reachable buildGraph
      [("pymodule_objects", Phase.running),
       ("run_tests", Phase.done), ("run_tests", Phase.running),
       ("tests", Phase.done), ("tests", Phase.running),
       ("pymodule_sources", Phase.done), ("pymodule_sources", Phase.running),
       ("deps", Phase.done), ("deps", Phase.running),
       ("test_sources", Phase.done), ("test_sources", Phase.running),
       ("headers", Phase.done), ("headers", Phase.running),
       ("submodules", Phase.done), ("submodules", Phase.running)] := by
  refine Reachable.step ?_ (Step.dispatch
    ⟨"pymodule_objects", ["deps", "pymodule_sources", "headers", "run_tests"], false⟩
    (by decide) (by decide) (by decide) (by decide))
  refine Reachable.step ?_ (Step.finish ⟨"run_tests", ["tests"], true⟩
    (by decide) (by decide))
  refine Reachable.step ?_ (Step.dispatch ⟨"run_tests", ["tests"], true⟩
    (by decide) (by decide) (by decide) (by decide))
  refine Reachable.step ?_ (Step.finish
    ⟨"tests", ["deps", "test_sources", "headers", "submodules"], false⟩
    (by decide) (by decide))
  refine Reachable.step ?_ (Step.dispatch
    ⟨"tests", ["deps", "test_sources", "headers", "submodules"], false⟩
    (by decide) (by decide) (by decide) (by decide))
  refine Reachable.step ?_ (Step.finish ⟨"pymodule_sources", ["submodules"], false⟩
    (by decide) (by decide))
  refine Reachable.step ?_ (Step.dispatch ⟨"pymodule_sources", ["submodules"], false⟩
    (by decide) (by decide) (by decide) (by decide))
  refine Reachable.step ?_ (Step.finish ⟨"deps", [], false⟩ (by decide) (by decide))
  refine Reachable.step ?_ (Step.dispatch ⟨"deps", [], false⟩
    (by decide) (by decide) (by decide) (by decide))
  refine Reachable.step ?_ (Step.finish ⟨"test_sources", [], false⟩
    (by decide) (by decide))
  refine Reachable.step ?_ (Step.dispatch ⟨"test_sources", [], false⟩
    (by decide) (by decide) (by decide) (by decide))
  refine Reachable.step ?_ (Step.finish ⟨"headers", [], false⟩ (by decide) (by decide))
  refine Reachable.step ?_ (Step.dispatch ⟨"headers", [], false⟩
    (by decide) (by decide) (by decide) (by decide))
  refine Reachable.step ?_ (Step.finish ⟨"submodules", [], false⟩
    (by decide) (by decide))
  refine Reachable.step ?_ (Step.dispatch ⟨"submodules", [], false⟩
    (by decide) (by decide) (by decide) (by decide))
  exact Reachable.init

lemma bakeReachState :
    Reachable bakeGraph
      [("pymodule_objects", Phase.running),
       ("run_tests", Phase.done), ("run_tests", Phase.running),
       ("tests", Phase.done), ("tests", Phase.running),
       ("pymodule_sources", Phase.done), ("pymodule_sources", Phase.running),
       ("test_sources", Phase.done), ("test_sources", Phase.running),
       ("headers", Phase.done), ("headers", Phase.running),
       ("submodules", Phase.done), ("submodules", Phase.running)] := by
  refine Reachable.step ?_ (Step.dispatch
    ⟨"pymodule_objects", ["pymodule_sources", "headers", "run_tests"], false⟩
    (by decide) (by decide) (by decide) (by decide))
  refine Reachable.step ?_ (Step.finish ⟨"run_tests", ["tests"], true⟩
    (by decide) (by decide))
  refine Reachable.step ?_ (Step.dispatch ⟨"run_tests", ["tests"], true⟩
    (by decide) (by decide) (by decide) (by decide))
  refine Reachable.step ?_ (Step.finish ⟨"tests", ["test_sources", "headers"], false⟩
    (by decide) (by decide))
  refine Reachable.step ?_ (Step.dispatch ⟨"tests", ["test_sources", "headers"], false⟩
    (by decide) (by decide) (by decide) (by decide))
  refine Reachable.step ?_ (Step.finish ⟨"pymodule_sources", ["submodules"], false⟩
    (by decide) (by decide))
  refine Reachable.step ?_ (Step.dispatch ⟨"pymodule_sources", ["submodules"], false⟩
    (by decide) (by decide) (by decide) (by decide))
  refine Reachable.step ?_ (Step.finish ⟨"test_sources", ["submodules"], false⟩
    (by decide) (by decide))
  refine Reachable.step ?_ (Step.dispatch ⟨"test_sources", ["submodules"], false⟩
    (by decide) (by decide) (by decide) (by decide))
  refine Reachable.step ?_ (Step.finish ⟨"headers", [], false⟩ (by decide) (by decide))
  refine Reachable.step ?_ (Step.dispatch ⟨"headers", [], false⟩
    (by decide) (by decide) (by decide) (by decide))
  refine Reachable.step ?_ (Step.finish ⟨"submodules", [], false⟩
    (by decide) (by decide))
  refine Reachable.step ?_ (Step.dispatch ⟨"submodules", [], false⟩
    (by decide) (by decide) (by decide) (by decide))
  exact Reachable.init

theorem C10_default_target_runs_tests_first_witness :
    phaseOf
      [("pymodule_objects", Phase.running),
       ("run_tests", Phase.done), ("run_tests", Phase.running),
       ("tests", Phase.done), ("tests", Phase.running),
       ("pymodule_sources", Phase.done), ("pymodule_sources", Phase.running),
       ("deps", Phase.done), ("deps", Phase.running),
       ("test_sources", Phase.done), ("test_sources", Phase.running),
       ("headers", Phase.done), ("headers", Phase.running),
       ("submodules", Phase.done), ("submodules", Phase.running)]
      "run_tests" = Phase.done ∧
    phaseOf
      [("pymodule_objects", Phase.running),
       ("run_tests", Phase.done), ("run_tests", Phase.running),
       ("tests", Phase.done), ("tests", Phase.running),
       ("pymodule_sources", Phase.done), ("pymodule_sources", Phase.running),
       ("test_sources", Phase.done), ("test_sources", Phase.running),
       ("headers", Phase.done), ("headers", Phase.running),
       ("submodules", Phase.done), ("submodules", Phase.running)]
      "run_tests" = Phase.done :=
  have h := C10_default_target_runs_tests_first _ _ buildReachState bakeReachState
  ⟨h.2.2.2.2.1 (by decide), h.2.2.2.2.2 (by decide)⟩
